import Mathlib

/-!
Shallow embedding of the `regd-testing` toolkit's random sampling core
(`src/rand.rs`, `src/slice_ext.rs`, `src/io.rs`).

External randomness is made explicit: every function that consumes the
thread-local RNG takes the raw entropy it draws as a natural number (or a
stream of naturals), and the `rand` crate's unbiased `random_range`
reduction of entropy into a nonempty range is modelled as
`lo + r % (hi - lo)`.  Panics (`assert!`, out-of-bounds indexing) are
modelled as `none`; fallible external calls (`fs::metadata`,
`fs::remove_file`) are supplied as oracle functions.
-/

namespace RegdTesting

open scoped List

/-- Model of the external `rand` crate's reduction of raw entropy `r` into
the nonempty half-open range `[lo, hi)`; the crate guarantees a uniform,
in-range result, and only in-range-ness and the induced distribution are
used in the development. -/
def randomRange (lo hi r : ℕ) : ℕ := lo + r % (hi - lo)

/-- `rand.rs::generate_range`, specialised to half-open integer ranges:
`assert!(!range.is_empty())` (the `none` models the panic), then one draw
from the random source over the range. -/
def generate_range (lo hi r : ℕ) : Option ℕ :=
  if lo < hi then some (randomRange lo hi r) else none

/-- Probability mass function of a draw of `generate_range` over
`[lo, hi)`, per the `rand` crate's uniformity contract. -/
def rangeDist (lo hi : ℕ) (k : ℕ) : ℚ :=
  if lo ≤ k ∧ k < hi then 1 / ((hi - lo : ℕ) : ℚ) else 0

/-- `u32::MAX` as a natural number. -/
def u32MAX : ℕ := 2 ^ 32 - 1

/-- `slice_ext.rs::generate_index`: if `sup <= u32::MAX as usize`, sample
`generate_range(0..sup as u32) as usize`, else `generate_range(0..sup)`.
The Rust narrowing cast `sup as u32` is written `sup % 2 ^ 32`; the
widening cast of the result back to `usize` is the identity on naturals
below `2 ^ 32` and so leaves no trace. -/
def generate_index (sup r : ℕ) : Option ℕ :=
  if sup ≤ u32MAX then generate_range 0 (sup % 2 ^ 32) r
  else generate_range 0 sup r

/-- Output distribution of the narrow (32-bit) branch of
`generate_index`: uniform over the `u32` range `0..sup as u32`, viewed
through the identity widening cast. -/
def indexDist32 (sup k : ℕ) : ℚ := rangeDist 0 (sup % 2 ^ 32) k

/-- Output distribution of the native-width branch of `generate_index`:
uniform over `0..sup` at `usize` width. -/
def indexDistNative (sup k : ℕ) : ℚ := rangeDist 0 sup k

/-- `slice_ext.rs::choose`: `None` for an empty slice, otherwise
`Some(&self[generate_index(self.len())])`.  The outer `none` models a
panic (empty sampling range or out-of-bounds indexing), `some none` is
the empty-slice result, `some (some a)` the chosen element. -/
def choose {α : Type _} (l : List α) (r : ℕ) : Option (Option α) :=
  if l.isEmpty then some none
  else
    match generate_index l.length r with
    | none => none
    | some i =>
      match l[i]? with
      | none => none
      | some a => some (some a)

/-- `slice_ext.rs::choose_mut`: identical index logic to `choose`; the
mutable borrow is irrelevant to the embedding. -/
def choose_mut {α : Type _} (l : List α) (r : ℕ) : Option (Option α) :=
  if l.isEmpty then some none
  else
    match generate_index l.length r with
    | none => none
    | some i =>
      match l[i]? with
      | none => none
      | some a => some (some a)

/-- Rust `slice::swap(i, j)` on a list: `none` models the out-of-bounds
panic; otherwise the elements at `i` and `j` are exchanged. -/
def swapNth {α : Type _} (l : List α) (i j : ℕ) : Option (List α) :=
  match l[i]?, l[j]? with
  | some a, some b => some ((l.set i b).set j a)
  | _, _ => none

/-- The descending loop of `slice_ext.rs::shuffle`: perform the swaps at
positions `i, i-1, ..., 1`, the swap at position `p` pairing `p` with
`generate_index(p + 1)` fed from entropy `r p`. -/
def shuffleAux {α : Type _} (r : ℕ → ℕ) : ℕ → List α → Option (List α)
  | 0, l => some l
  | i + 1, l =>
    match generate_index (i + 2) (r (i + 1)) with
    | none => none
    | some j =>
      match swapNth l (i + 1) j with
      | none => none
      | some l1 => shuffleAux r i l1

/-- `slice_ext.rs::shuffle`:
`for i in (1..self.len()).rev() { self.swap(i, generate_index(i + 1)); }`. -/
def shuffle {α : Type _} (l : List α) (r : ℕ → ℕ) : Option (List α) :=
  shuffleAux r (l.length - 1) l

/-- Total exchange of positions `i` and `j`, agreeing with `swapNth`
wherever the latter does not panic; used for analysis of the shuffle. -/
def swapT {α : Type _} (l : List α) (i j : ℕ) : List α :=
  match l[i]?, l[j]? with
  | some a, some b => (l.set i b).set j a
  | _, _ => l

/-- Total Fisher-Yates pass driven by a tape `t` of already-reduced swap
partners: position `p` is exchanged with `t p`. -/
def fyAux {α : Type _} (t : ℕ → ℕ) : ℕ → List α → List α
  | 0, l => l
  | i + 1, l => fyAux t i (swapT l (i + 1) (t (i + 1)))

/-- Total Fisher-Yates on a whole list. -/
def fy {α : Type _} (l : List α) (t : ℕ → ℕ) : List α :=
  fyAux t (l.length - 1) l

/-- Modelled from the spec (§4.2): `shuffle(seq)` is "in-place
Fisher-Yates: for `i` ranging from `len(seq)-1` down to `1`, swap the
element at position `i` with the element at `sample_index(i+1)`
(inclusive upper bound of `i`); no-op for `len(seq) ≤ 1`", where
`sample` is the sampler with `sample m < m`. -/
def fySpec {α : Type _} (l : List α) (sample : ℕ → ℕ) : List α :=
  if l.length ≤ 1 then l else fySpecAux sample (l.length - 1) l
where
  fySpecAux (sample : ℕ → ℕ) : ℕ → List α → List α
    | 0, l => l
    | i + 1, l => fySpecAux sample i (swapT l (i + 1) (sample (i + 2)))

/-- `io.rs::try_remove_file`'s loop over the attempt numbers still to be
made: a successful attempt returns `Ok(())` at once; a failed attempt
with number below 4 continues, a failed 4th attempt returns its error;
falling out of the loop yields the trailing `Ok(())`. `att k` is the
outcome of the `k`-th `fs::remove_file` call. -/
def removeLoop {ε : Type _} (att : ℕ → Except ε Unit) : List ℕ → Except ε Unit
  | [] => Except.ok ()
  | n :: rest =>
    match att n with
    | Except.ok _ => Except.ok ()
    | Except.error e => if n < 4 then removeLoop att rest else Except.error e

/-- `io.rs::try_remove_file`: `for attempt in 1..=4 { ... }`. -/
def try_remove_file {ε : Type _} (att : ℕ → Except ε Unit) : Except ε Unit :=
  removeLoop att [1, 2, 3, 4]

/-- The 62-symbol alphabet of the `rand` crate's `Alphanumeric`
distribution (`A-Z`, `a-z`, `0-9`). -/
def alphanumericChars : List Char :=
  "ABCDEFGHIJKLMNOPQRSTUVWXYZabcdefghijklmnopqrstuvwxyz0123456789".toList

/-- One draw from `Alphanumeric`: raw entropy reduced to the alphabet. -/
def sampleAlphanumeric (r : ℕ) : Char := alphanumericChars.getD (r % 62) 'A'

/-- `rand.rs::generate_alphanumeric`: `length` independent draws from
`Alphanumeric`, the `k`-th fed from entropy `r k`. -/
def generate_alphanumeric (length : ℕ) (r : ℕ → ℕ) : List Char :=
  (List.range length).map fun k => sampleAlphanumeric (r k)

/-- Result of the external `fs::metadata` call on a candidate name:
success, a not-found error, or any other I/O error. -/
inductive MetaResult where
  | ok
  | errNotFound
  | errIO
deriving DecidableEq

/-- Rust `Result::is_err` applied to the metadata result: the source's
`fs::metadata(&filename).is_err()` test. -/
def metaIsErr : MetaResult → Bool
  | MetaResult.ok => false
  | MetaResult.errNotFound => true
  | MetaResult.errIO => true

/-- The retry loop of `rand.rs::generate_badfile` with `fuel` bounding
the number of iterations observed (the source loops without bound; `none`
models a run that has not yet returned after `fuel` iterations).
Iteration `k` (counting down from `fuel - 1`) draws its per-character
entropy from `r k`; the candidate is returned exactly when
`fs::metadata(&filename).is_err()`. -/
def badfileLoop (fsMeta : List Char → MetaResult) (length : ℕ)
    (r : ℕ → ℕ → ℕ) : ℕ → Option (List Char)
  | 0 => none
  | fuel + 1 =>
    let filename := generate_alphanumeric length (r fuel)
    if metaIsErr (fsMeta filename) then some filename
    else badfileLoop fsMeta length r fuel

/-- `rand.rs::generate_badfile`: `assert!(length > 0)` (outer `none`
models the panic), then the collision loop. -/
def generate_badfile (length : ℕ) (fsMeta : List Char → MetaResult)
    (r : ℕ → ℕ → ℕ) (fuel : ℕ) : Option (Option (List Char)) :=
  if length > 0 then some (badfileLoop fsMeta length r fuel) else none

/-! ### Basic lemmas about the samplers -/

lemma u32MAX_lt : u32MAX < 2 ^ 32 := by
  simp [u32MAX]

lemma generate_range_eq {lo hi : ℕ} (h : lo < hi) (r : ℕ) :
    generate_range lo hi r = some (lo + r % (hi - lo)) := by
  simp [generate_range, randomRange, h]

lemma generate_range_empty (lo r : ℕ) : generate_range lo lo r = none := by
  simp [generate_range]

lemma generate_index_eq {sup : ℕ} (h : 1 ≤ sup) (r : ℕ) :
    generate_index sup r = some (r % sup) := by
  unfold generate_index
  split
  · next hle =>
    have hlt : sup < 2 ^ 32 := lt_of_le_of_lt hle u32MAX_lt
    rw [Nat.mod_eq_of_lt hlt, generate_range_eq h]
    simp
  · rw [generate_range_eq h]
    simp

lemma generate_index_lt {sup : ℕ} (h : 1 ≤ sup) (r i : ℕ)
    (hi : generate_index sup r = some i) : i < sup := by
  rw [generate_index_eq h] at hi
  cases hi
  exact Nat.mod_lt _ h

/-! ### Swap and Fisher-Yates infrastructure -/

lemma cons_set_perm {α : Type _} :
    ∀ (t : List α) (m : ℕ) (a b : α), t[m]? = some b →
      (b :: t.set m a) ~ (a :: t)
  | [], m, a, b, h => by simp at h
  | c :: t, 0, a, b, h => by
    simp only [List.getElem?_cons_zero, Option.some_inj] at h
    subst h
    simpa using List.Perm.swap a c t
  | c :: t, m + 1, a, b, h => by
    simp only [List.getElem?_cons_succ] at h
    have ih := cons_set_perm t m a b h
    calc b :: (c :: t).set (m + 1) a = b :: c :: t.set m a := by simp
      _ ~ c :: b :: t.set m a := List.Perm.swap c b _
      _ ~ c :: a :: t := ih.cons c
      _ ~ a :: c :: t := List.Perm.swap a c t

lemma set_set_perm {α : Type _} :
    ∀ (l : List α) (i j : ℕ) (a b : α), l[i]? = some a → l[j]? = some b →
      ((l.set i b).set j a) ~ l
  | [], i, _, a, _, hi, _ => by simp at hi
  | c :: t, 0, 0, a, b, hi, hj => by
    simp only [List.getElem?_cons_zero, Option.some_inj] at hi hj
    subst hi; subst hj
    simp
  | c :: t, 0, m + 1, a, b, hi, hj => by
    simp only [List.getElem?_cons_zero, Option.some_inj] at hi
    simp only [List.getElem?_cons_succ] at hj
    subst hi
    simpa using cons_set_perm t m c b hj
  | c :: t, n + 1, 0, a, b, hi, hj => by
    simp only [List.getElem?_cons_succ] at hi
    simp only [List.getElem?_cons_zero, Option.some_inj] at hj
    subst hj
    simpa using cons_set_perm t n c a hi
  | c :: t, n + 1, m + 1, a, b, hi, hj => by
    simp only [List.getElem?_cons_succ] at hi hj
    simpa using (set_set_perm t n m a b hi hj).cons c

lemma swapT_perm {α : Type _} (l : List α) (i j : ℕ) : (swapT l i j) ~ l := by
  unfold swapT
  split
  · next a b hi hj => exact set_set_perm l i j a b hi hj
  · exact List.Perm.refl l

lemma swapT_length {α : Type _} (l : List α) (i j : ℕ) :
    (swapT l i j).length = l.length := by
  unfold swapT
  split <;> simp

lemma swapT_getElem?_of_ne {α : Type _} (l : List α) {i j k : ℕ}
    (h1 : k ≠ i) (h2 : k ≠ j) : (swapT l i j)[k]? = l[k]? := by
  unfold swapT
  split
  · next a b hi hj =>
    rw [List.getElem?_set_ne h2.symm, List.getElem?_set_ne h1.symm]
  · rfl

lemma swapT_getElem?_right {α : Type _} {l : List α} {i j : ℕ} {a b : α}
    (hi : l[i]? = some a) (hj : l[j]? = some b) :
    (swapT l i j)[j]? = some a := by
  have hjl : j < l.length := by
    rcases List.getElem?_eq_some_iff.mp hj with ⟨h, _⟩
    exact h
  unfold swapT
  rw [hi, hj]
  simp [List.getElem?_set_self, hjl]

lemma swapT_getElem?_left {α : Type _} {l : List α} {i j : ℕ} {a b : α}
    (hne : i ≠ j) (hi : l[i]? = some a) (hj : l[j]? = some b) :
    (swapT l i j)[i]? = some b := by
  have hil : i < l.length := by
    rcases List.getElem?_eq_some_iff.mp hi with ⟨h, _⟩
    exact h
  unfold swapT
  rw [hi, hj]
  rw [List.getElem?_set_ne (Ne.symm hne), List.getElem?_set_self]
  simpa using hil

lemma fyAux_length {α : Type _} (t : ℕ → ℕ) :
    ∀ (i : ℕ) (l : List α), (fyAux t i l).length = l.length
  | 0, _ => rfl
  | i + 1, l => by
    rw [fyAux, fyAux_length t i, swapT_length]

lemma fyAux_perm {α : Type _} (t : ℕ → ℕ) :
    ∀ (i : ℕ) (l : List α), (fyAux t i l) ~ l
  | 0, l => List.Perm.refl l
  | i + 1, l =>
    (fyAux_perm t i _).trans (swapT_perm l (i + 1) (t (i + 1)))

lemma fyAux_getElem?_of_gt {α : Type _} {t : ℕ → ℕ} (ht : ∀ m, t m ≤ m) :
    ∀ (i : ℕ) (l : List α) (k : ℕ), i < k → (fyAux t i l)[k]? = l[k]?
  | 0, _, _, _ => rfl
  | i + 1, l, k, hk => by
    rw [fyAux, fyAux_getElem?_of_gt ht i _ k (by omega)]
    exact swapT_getElem?_of_ne l (by omega) (fun h => by have := ht (i + 1); omega)

lemma fyAux_congr {α : Type _} {t₁ t₂ : ℕ → ℕ} :
    ∀ (i : ℕ) (l : List α), (∀ k, 1 ≤ k → k ≤ i → t₁ k = t₂ k) →
      fyAux t₁ i l = fyAux t₂ i l
  | 0, _, _ => rfl
  | i + 1, l, h => by
    rw [fyAux, fyAux, h (i + 1) (by omega) (le_refl _)]
    exact fyAux_congr i _ (fun k h1 h2 => h k h1 (by omega))

lemma swapNth_eq_swapT {α : Type _} {l : List α} {i j : ℕ}
    (hi : i < l.length) (hj : j < l.length) :
    swapNth l i j = some (swapT l i j) := by
  unfold swapNth swapT
  rw [List.getElem?_eq_getElem hi, List.getElem?_eq_getElem hj]

lemma shuffleAux_eq_fyAux {α : Type _} (r : ℕ → ℕ) :
    ∀ (i : ℕ) (l : List α), i < l.length →
      shuffleAux r i l = some (fyAux (fun k => r k % (k + 1)) i l)
  | 0, _, _ => rfl
  | i + 1, l, h => by
    have hg := generate_index_eq (show 1 ≤ i + 2 by omega) (r (i + 1))
    have hj : r (i + 1) % (i + 2) < l.length :=
      lt_of_lt_of_le (Nat.mod_lt _ (by omega)) (by omega)
    simp only [shuffleAux, hg, swapNth_eq_swapT h hj, fyAux]
    exact shuffleAux_eq_fyAux r i _ (by rw [swapT_length]; omega)

lemma shuffle_eq_fy {α : Type _} (l : List α) (r : ℕ → ℕ) :
    shuffle l r = some (fy l (fun k => r k % (k + 1))) := by
  unfold shuffle fy
  rcases Nat.eq_zero_or_pos l.length with h | h
  · simp [h, shuffleAux, fyAux]
  · exact shuffleAux_eq_fyAux r (l.length - 1) l (by omega)

lemma fySpecAux_eq_fyAux {α : Type _} (s : ℕ → ℕ) :
    ∀ (i : ℕ) (l : List α),
      fySpec.fySpecAux s i l = fyAux (fun k => s (k + 1)) i l
  | 0, _ => rfl
  | i + 1, l => by
    rw [fySpec.fySpecAux, fyAux]
    exact fySpecAux_eq_fyAux s i _

lemma fySpec_eq_fyAux {α : Type _} (l : List α) (s : ℕ → ℕ) :
    fySpec l s = fyAux (fun k => s (k + 1)) (l.length - 1) l := by
  unfold fySpec
  split
  · next h =>
    have h0 : l.length - 1 = 0 := by omega
    rw [h0]
    rfl
  · exact fySpecAux_eq_fyAux s (l.length - 1) l

lemma choose_mut_eq_choose {α : Type _} (l : List α) (r : ℕ) :
    choose_mut l r = choose l r := rfl

lemma choose_spec {α : Type _} (l : List α) (r : ℕ) (hl : l ≠ []) :
    ∃ i a, generate_index l.length r = some i ∧ l[i]? = some a ∧
      choose l r = some (some a) ∧ a ∈ l := by
  have hlen : 1 ≤ l.length := List.length_pos.mpr hl
  have hg := generate_index_eq hlen r
  have hi : r % l.length < l.length := Nat.mod_lt _ hlen
  have hne : l.isEmpty = false := by simpa using hl
  refine ⟨r % l.length, l[r % l.length], hg, List.getElem?_eq_getElem hi, ?_,
    List.getElem_mem hi⟩
  simp only [choose, hne, Bool.false_eq_true, if_false, hg,
    List.getElem?_eq_getElem hi]

lemma choose_empty {α : Type _} (r : ℕ) : choose ([] : List α) r = some none := rfl

lemma badfileLoop_spec (fsMeta : List Char → MetaResult) (length : ℕ)
    (r : ℕ → ℕ → ℕ) :
    ∀ (fuel : ℕ) (name : List Char),
      badfileLoop fsMeta length r fuel = some name →
        metaIsErr (fsMeta name) = true
  | 0, name, h => by simp [badfileLoop] at h
  | fuel + 1, name, h => by
    rw [badfileLoop] at h
    cases hmeta : metaIsErr (fsMeta (generate_alphanumeric length (r fuel))) with
    | true =>
      simp only [hmeta, if_true] at h
      cases h
      exact hmeta
    | false =>
      simp only [hmeta, Bool.false_eq_true, if_false] at h
      exact badfileLoop_spec fsMeta length r fuel name h

lemma metaIsErr_iff (m : MetaResult) : metaIsErr m = true ↔ m ≠ MetaResult.ok := by
  cases m <;> simp [metaIsErr]

/-! ### Claim theorems -/

/-- C6: for every half-open range `[lo, hi)` with `lo < hi`,
`generate_range` returns a value `v` with `lo ≤ v < hi` (never below `lo`,
never at or above `hi`), and calling it on the empty range `lo == hi`
fails fast (panic, modelled by `none`) instead of returning a value. -/
theorem generate_range_in_bounds_and_empty_fatal (lo hi r : ℕ) :
    (lo < hi → ∃ v, generate_range lo hi r = some v ∧ lo ≤ v ∧ v < hi) ∧
      generate_range lo lo r = none := by
  constructor
  · intro h
    refine ⟨lo + r % (hi - lo), generate_range_eq h r, Nat.le_add_right _ _, ?_⟩
    have hmod : r % (hi - lo) < hi - lo := Nat.mod_lt _ (by omega)
    omega
  · exact generate_range_empty lo r

theorem generate_range_in_bounds_and_empty_fatal_witness :
    (10 < 20 → ∃ v, generate_range 10 20 7 = some v ∧ 10 ≤ v ∧ v < 20) ∧
      generate_range 10 10 7 = none :=
  generate_range_in_bounds_and_empty_fatal 10 20 7

/-- C4: for every `length` with `1 ≤ length ≤ u32::MAX`, the 32-bit branch
of the index sampler (range `0..length as u32`, result cast back) and the
native-width branch (range `0..length`) induce the same output
distribution over `[0, length)`; moreover, fed the same raw entropy the
two branches return identical values, so the width split has no
observable semantic difference. -/
theorem index_sampler_branches_equivalent (sup : ℕ) (_h1 : 1 ≤ sup)
    (h2 : sup ≤ u32MAX) :
    (∀ k, indexDist32 sup k = indexDistNative sup k) ∧
      ∀ r, generate_range 0 (sup % 2 ^ 32) r = generate_range 0 sup r := by
  have hid : sup % 2 ^ 32 = sup := Nat.mod_eq_of_lt (lt_of_le_of_lt h2 u32MAX_lt)
  exact ⟨fun k => by rw [indexDist32, indexDistNative, hid],
    fun r => by rw [hid]⟩

theorem index_sampler_branches_equivalent_witness :
    (∀ k, indexDist32 5 k = indexDistNative 5 k) ∧
      ∀ r, generate_range 0 (5 % 2 ^ 32) r = generate_range 0 5 r :=
  index_sampler_branches_equivalent 5 (by omega)
    (by norm_num [u32MAX])

/-- C5: on a slice of length `N ≥ 1`, `choose` returns `Some` of the
element at index `sample_index(N)`, a member of the slice; on the empty
slice it returns `None` without failing.  The same holds for
`choose_mut`. -/
theorem choose_member_or_none {α : Type _} (l : List α) (r : ℕ) :
    (l ≠ [] → ∃ a, choose l r = some (some a) ∧ a ∈ l ∧
        ∃ i, generate_index l.length r = some i ∧ l[i]? = some a) ∧
      (l = [] → choose l r = some none) ∧
      (l ≠ [] → ∃ a, choose_mut l r = some (some a) ∧ a ∈ l) ∧
      (l = [] → choose_mut l r = some none) := by
  refine ⟨fun hl => ?_, fun hl => ?_, fun hl => ?_, fun hl => ?_⟩
  · obtain ⟨i, a, hg, ha, hc, hm⟩ := choose_spec l r hl
    exact ⟨a, hc, hm, i, hg, ha⟩
  · subst hl
    exact choose_empty r
  · obtain ⟨i, a, _, _, hc, hm⟩ := choose_spec l r hl
    exact ⟨a, (choose_mut_eq_choose l r).trans hc, hm⟩
  · subst hl
    exact choose_empty r

theorem choose_member_or_none_witness :
    (∃ a, choose [7] 0 = some (some a) ∧ a ∈ [7] ∧
        ∃ i, generate_index ([7] : List ℕ).length 0 = some i ∧ [7][i]? = some a) ∧
      choose_mut ([] : List ℕ) 0 = some none :=
  ⟨(choose_member_or_none [7] 0).1 (by simp),
    (choose_member_or_none ([] : List ℕ) 0).2.2.2 rfl⟩

/-- C10: for every `sup ≥ 1` the index sampler returns `some (r % sup)` —
it never reaches the empty-range assertion in `generate_range` on either
branch — the narrowing cast on the 32-bit branch is the identity under
its guard `sup ≤ u32::MAX`, the returned index is `< sup`, and hence the
unchecked indexing of `choose` and `choose_mut` on a nonempty slice is in
bounds and the calls never panic. -/
theorem generate_index_safe {α : Type _} (sup r : ℕ) (h : 1 ≤ sup)
    (l : List α) (r' : ℕ) (hl : l ≠ []) :
    generate_index sup r = some (r % sup) ∧ r % sup < sup ∧
      (sup ≤ u32MAX → sup % 2 ^ 32 = sup) ∧
      (∃ a, choose l r' = some (some a)) ∧
      ∃ a, choose_mut l r' = some (some a) := by
  obtain ⟨i, a, _, _, hc, _⟩ := choose_spec l r' hl
  exact ⟨generate_index_eq h r, Nat.mod_lt _ h,
    fun h2 => Nat.mod_eq_of_lt (lt_of_le_of_lt h2 u32MAX_lt),
    ⟨a, hc⟩, ⟨a, (choose_mut_eq_choose l r').trans hc⟩⟩

theorem generate_index_safe_witness :
    generate_index 3 5 = some (5 % 3) ∧ 5 % 3 < 3 ∧
      (3 ≤ u32MAX → 3 % 2 ^ 32 = 3) ∧
      (∃ a, choose [4, 9] 5 = some (some a)) ∧
      ∃ a, choose_mut [4, 9] 5 = some (some a) :=
  generate_index_safe 3 5 (by omega) [4, 9] 5 (by simp)

/-- C8: `try_remove_file` makes at most 4 attempts: when every one of the
4 attempts fails it returns the error of the final (4th) attempt — never
success — and as soon as an attempt succeeds (all earlier ones having
failed) it returns `Ok(())`. -/
theorem try_remove_file_retry_bound {ε : Type _} (att : ℕ → Except ε Unit) :
    ((∀ k, 1 ≤ k → k ≤ 4 → ∃ e, att k = Except.error e) →
        try_remove_file att = att 4) ∧
      ∀ k, 1 ≤ k → k ≤ 4 → att k = Except.ok () →
        (∀ j, 1 ≤ j → j < k → ∃ e, att j = Except.error e) →
        try_remove_file att = Except.ok () := by
  constructor
  · intro hall
    obtain ⟨e1, h1⟩ := hall 1 (by omega) (by omega)
    obtain ⟨e2, h2⟩ := hall 2 (by omega) (by omega)
    obtain ⟨e3, h3⟩ := hall 3 (by omega) (by omega)
    obtain ⟨e4, h4⟩ := hall 4 (by omega) (by omega)
    simp [try_remove_file, removeLoop, h1, h2, h3, h4]
  · intro k hk1 hk4 hsucc hbefore
    interval_cases k
    · simp [try_remove_file, removeLoop, hsucc]
    · obtain ⟨e1, h1⟩ := hbefore 1 (by omega) (by omega)
      simp [try_remove_file, removeLoop, h1, hsucc]
    · obtain ⟨e1, h1⟩ := hbefore 1 (by omega) (by omega)
      obtain ⟨e2, h2⟩ := hbefore 2 (by omega) (by omega)
      simp [try_remove_file, removeLoop, h1, h2, hsucc]
    · obtain ⟨e1, h1⟩ := hbefore 1 (by omega) (by omega)
      obtain ⟨e2, h2⟩ := hbefore 2 (by omega) (by omega)
      obtain ⟨e3, h3⟩ := hbefore 3 (by omega) (by omega)
      simp [try_remove_file, removeLoop, h1, h2, h3, hsucc]

theorem try_remove_file_retry_bound_witness :
    try_remove_file (fun k => (Except.error k : Except ℕ Unit)) =
      (fun k => (Except.error k : Except ℕ Unit)) 4 :=
  (try_remove_file_retry_bound fun k => Except.error k).1
    fun k _ _ => ⟨k, rfl⟩

/-- C7: for every `length ≥ 1`, whatever candidate `generate_badfile`
returns, the existence check performed on it (the `fs::metadata` call) had
just reported the name as not present (the call did not succeed); calling
`generate_badfile` with `length = 0` fails fast (panic, modelled by the
outer `none`). -/
theorem generate_badfile_unique_and_zero_fatal :
    (∀ (length : ℕ) (fsMeta : List Char → MetaResult) (r : ℕ → ℕ → ℕ)
        (fuel : ℕ) (name : List Char),
        generate_badfile length fsMeta r fuel = some (some name) →
          fsMeta name ≠ MetaResult.ok) ∧
      ∀ (fsMeta : List Char → MetaResult) (r : ℕ → ℕ → ℕ) (fuel : ℕ),
        generate_badfile 0 fsMeta r fuel = none := by
  constructor
  · intro length fsMeta r fuel name h
    rcases Nat.eq_zero_or_pos length with h0 | h0
    · subst h0
      simp [generate_badfile] at h
    · rw [generate_badfile, if_pos h0] at h
      obtain hloop : badfileLoop fsMeta length r fuel = some name :=
        Option.some_inj.mp h
      exact (metaIsErr_iff _).mp (badfileLoop_spec fsMeta length r fuel name hloop)
  · intro fsMeta r fuel
    simp [generate_badfile]

theorem generate_badfile_unique_and_zero_fatal_witness :
    (fun _ => MetaResult.errNotFound : List Char → MetaResult) ['A'] ≠
        MetaResult.ok ∧
      generate_badfile 0 (fun _ => MetaResult.errNotFound) (fun _ _ => 0) 1 =
        none :=
  ⟨generate_badfile_unique_and_zero_fatal.1 1 (fun _ => MetaResult.errNotFound)
      (fun _ _ => 0) 1 ['A'] (by decide),
    generate_badfile_unique_and_zero_fatal.2 (fun _ => MetaResult.errNotFound)
      (fun _ _ => 0) 1⟩

/-- C1 counterexample: with a metadata oracle that fails with a
non-not-found I/O error on every name, `generate_badfile` returns the very
first candidate (the one whose check failed with the I/O error) instead of
propagating the error — the claim that I/O errors from the existence
check are not treated as "name free" and propagate to the caller is false
on the code, whose `fs::metadata(&filename).is_err()` test cannot tell
a not-found from any other failure and whose `String` return type has no
error channel at all. -/
theorem badfile_io_error_returns_candidate :
    (fun _ => MetaResult.errIO : List Char → MetaResult) ['A'] =
        MetaResult.errIO ∧
      generate_badfile 1 (fun _ => MetaResult.errIO) (fun _ _ => 0) 1 =
        some (some ['A']) := by
  constructor
  · rfl
  · decide

/-- C1 (amended): the collision loop retries only when the metadata check
succeeds (the name exists); ANY failing check — not-found or any other
I/O error — is treated as "name free" and that candidate is returned
immediately; no error is ever propagated (the result carries no error
channel). -/
theorem badfile_retries_only_on_existing (fsMeta : List Char → MetaResult)
    (length : ℕ) (r : ℕ → ℕ → ℕ) (fuel : ℕ) :
    (∀ name, badfileLoop fsMeta length r fuel = some name →
        metaIsErr (fsMeta name) = true) ∧
      (metaIsErr (fsMeta (generate_alphanumeric length (r fuel))) = true →
        badfileLoop fsMeta length r (fuel + 1) =
          some (generate_alphanumeric length (r fuel))) ∧
      (fsMeta (generate_alphanumeric length (r fuel)) = MetaResult.ok →
        badfileLoop fsMeta length r (fuel + 1) =
          badfileLoop fsMeta length r fuel) := by
  refine ⟨badfileLoop_spec fsMeta length r fuel, fun h => ?_, fun h => ?_⟩
  · rw [badfileLoop]
    simp only [h, if_true]
  · rw [badfileLoop]
    simp only [h, metaIsErr, Bool.false_eq_true, if_false]

theorem badfile_retries_only_on_existing_witness :
    badfileLoop (fun _ => MetaResult.errIO) 1 (fun _ _ => 0) (0 + 1) =
      some (generate_alphanumeric 1 ((fun _ _ => 0) 0)) :=
  (badfile_retries_only_on_existing (fun _ => MetaResult.errIO) 1
      (fun _ _ => 0) 0).2.1 (by decide)

/-- C2: `shuffle` always succeeds and preserves the multiset of elements
(`List.Perm` of the result with the input); in particular shuffling
`[1,2,3,4,5]` yields a length-5 duplicate-free permutation of
`{1,2,3,4,5}`. -/
theorem shuffle_preserves_multiset :
    (∀ (α : Type) (l : List α) (r : ℕ → ℕ), ∃ l', shuffle l r = some l' ∧
        List.Perm l' l) ∧
      ∀ r : ℕ → ℕ, ∃ l', shuffle [1, 2, 3, 4, 5] r = some l' ∧
        l'.length = 5 ∧ l'.Nodup ∧ List.Perm l' [1, 2, 3, 4, 5] := by
  have main : ∀ (α : Type) (l : List α) (r : ℕ → ℕ),
      ∃ l', shuffle l r = some l' ∧ List.Perm l' l := by
    intro α l r
    exact ⟨fy l (fun k => r k % (k + 1)), shuffle_eq_fy l r,
      fyAux_perm _ (l.length - 1) l⟩
  refine ⟨main, fun r => ?_⟩
  obtain ⟨l', hs, hp⟩ := main ℕ [1, 2, 3, 4, 5] r
  exact ⟨l', hs, by simpa using hp.length_eq,
    hp.nodup_iff.mpr (by decide), hp⟩

/-- C3: `shuffle` is in-place Fisher-Yates exactly as specified: it
coincides with the spec-side loop `fySpec` (for `i` from `len-1` down to
`1`, swap position `i` with a sampled index from `[0, i]` inclusive) for a
sampler that is valid at every step, and it is a no-op on slices of
length 0 or 1. -/
theorem shuffle_is_fisher_yates {α : Type _} (l : List α) (r : ℕ → ℕ) :
    (∃ s : ℕ → ℕ, (∀ m, 1 ≤ m → s m < m) ∧ shuffle l r = some (fySpec l s)) ∧
      (l.length ≤ 1 → shuffle l r = some l) := by
  constructor
  · refine ⟨fun m => r (m - 1) % m, fun m hm => Nat.mod_lt _ (by omega), ?_⟩
    rw [shuffle_eq_fy, fySpec_eq_fyAux]
    rfl
  · intro hl
    unfold shuffle
    have h0 : l.length - 1 = 0 := by omega
    rw [h0]
    rfl

theorem shuffle_is_fisher_yates_witness :
    ([5] : List ℕ).length ≤ 1 ∧ shuffle [5] (fun _ => 0) = some [5] :=
  ⟨by simp, (shuffle_is_fisher_yates [5] (fun _ => 0)).2 (by simp)⟩

/-! ### Uniformity of the Fisher-Yates permutation (C9) -/

lemma swapT_getElem?_fst {α : Type _} {l : List α} {i j : ℕ} {a b : α}
    (hi : l[i]? = some a) (hj : l[j]? = some b) :
    (swapT l i j)[i]? = some b := by
  by_cases h : i = j
  · subst h
    rw [hi] at hj
    cases hj
    exact swapT_getElem?_right hi hi
  · exact swapT_getElem?_left h hi hj

lemma fyAux_inj {α : Type _} {t₁ t₂ : ℕ → ℕ} (hb1 : ∀ m, t₁ m ≤ m)
    (hb2 : ∀ m, t₂ m ≤ m) :
    ∀ (i : ℕ) (l : List α), l.Nodup → i < l.length →
      fyAux t₁ i l = fyAux t₂ i l → ∀ k, 1 ≤ k → k ≤ i → t₁ k = t₂ k
  | 0, _, _, _, _, _, hk1, hk0 => by omega
  | i + 1, l, hnd, hi, heq, k, hk1, hki => by
    have hj1 : t₁ (i + 1) < l.length := lt_of_le_of_lt (hb1 (i + 1)) hi
    have hj2 : t₂ (i + 1) < l.length := lt_of_le_of_lt (hb2 (i + 1)) hi
    have ha : l[i + 1]? = some (l[i + 1]) := List.getElem?_eq_getElem hi
    have hv1 : l[t₁ (i + 1)]? = some (l[t₁ (i + 1)]) := List.getElem?_eq_getElem hj1
    have hv2 : l[t₂ (i + 1)]? = some (l[t₂ (i + 1)]) := List.getElem?_eq_getElem hj2
    simp only [fyAux] at heq
    have e1 : (fyAux t₁ i (swapT l (i + 1) (t₁ (i + 1))))[i + 1]? =
        some (l[t₁ (i + 1)]) := by
      rw [fyAux_getElem?_of_gt hb1 i _ (i + 1) (by omega)]
      exact swapT_getElem?_fst ha hv1
    have e2 : (fyAux t₂ i (swapT l (i + 1) (t₂ (i + 1))))[i + 1]? =
        some (l[t₂ (i + 1)]) := by
      rw [fyAux_getElem?_of_gt hb2 i _ (i + 1) (by omega)]
      exact swapT_getElem?_fst ha hv2
    rw [heq, e2] at e1
    have hvals : l[t₂ (i + 1)] = l[t₁ (i + 1)] := Option.some_inj.mp e1
    have htj : t₁ (i + 1) = t₂ (i + 1) := ((hnd.getElem_inj_iff).mp hvals).symm
    rcases Nat.lt_or_ge k (i + 1) with hk | hk
    · have hndm : (swapT l (i + 1) (t₁ (i + 1))).Nodup :=
        (swapT_perm l (i + 1) (t₁ (i + 1))).nodup_iff.mpr hnd
      have him : i < (swapT l (i + 1) (t₁ (i + 1))).length := by
        rw [swapT_length]
        omega
      have heq' : fyAux t₁ i (swapT l (i + 1) (t₁ (i + 1))) =
          fyAux t₂ i (swapT l (i + 1) (t₁ (i + 1))) := by
        rw [← htj] at heq
        exact heq
      exact fyAux_inj hb1 hb2 i _ hndm him heq' k hk1 (by omega)
    · have hkk : k = i + 1 := by omega
      rw [hkk]
      exact htj

lemma fyAux_surj {α : Type _} :
    ∀ (i : ℕ) (l l' : List α), List.Perm l' l → i < l.length →
      (∀ k, i < k → l'[k]? = l[k]?) →
      ∃ t : ℕ → ℕ, (∀ m, t m ≤ m) ∧ fyAux t i l = l'
  | 0, l, l', hp, hi, hup => by
    refine ⟨fun _ => 0, fun m => Nat.zero_le m, ?_⟩
    show l = l'
    cases l with
    | nil => simp at hi
    | cons a ta =>
      cases l' with
      | nil => exact absurd hp.length_eq (by simp)
      | cons b tb =>
        have htail : tb = ta := List.ext_getElem? fun n => by
          have h := hup (n + 1) (by omega)
          simpa using h
        subst htail
        haveI := Classical.decEq α
        have hc := hp.count_eq b
        by_cases hab : b = a
        · rw [hab]
        · exfalso
          simp [List.count_cons, hab] at hc
  | i + 1, l, l', hp, hi, hup => by
    have hlen : l'.length = l.length := hp.length_eq
    have hvi : i + 1 < l'.length := by omega
    have hdrop : l'.drop (i + 2) = l.drop (i + 2) :=
      List.ext_getElem? fun n => by
        rw [List.getElem?_drop, List.getElem?_drop]
        exact hup (i + 2 + n) (by omega)
    have htake : List.Perm (l'.take (i + 2)) (l.take (i + 2)) := by
      have h1 : List.Perm (l'.take (i + 2) ++ l.drop (i + 2))
          (l.take (i + 2) ++ l.drop (i + 2)) := by
        conv_lhs => rw [← hdrop]
        rw [List.take_append_drop, List.take_append_drop]
        exact hp
      exact (List.perm_append_right_iff _).mp h1
    have hvmem : l'[i + 1] ∈ l.take (i + 2) := by
      refine htake.mem_iff.mp ?_
      have hv : (l'.take (i + 2))[i + 1]? = some (l'[i + 1]) := by
        rw [List.getElem?_take_of_lt (by omega)]
        exact List.getElem?_eq_getElem hvi
      exact List.getElem?_mem hv
    obtain ⟨j, hjt, hlv⟩ := List.getElem_of_mem hvmem
    have hjlt : j < i + 2 := lt_of_lt_of_le hjt (by simp)
    have hjl : j < l.length := hjt.trans_le (by simp [List.length_take])
    rw [List.getElem_take] at hlv
    have hmi : l[i + 1]? = some (l[i + 1]) := List.getElem?_eq_getElem hi
    have hmj : l[j]? = some (l[j]) := List.getElem?_eq_getElem hjl
    have hpm : List.Perm l' (swapT l (i + 1) j) :=
      hp.trans (swapT_perm l (i + 1) j).symm
    have him : i < (swapT l (i + 1) j).length := by
      rw [swapT_length]
      omega
    have hupm : ∀ k, i < k → l'[k]? = (swapT l (i + 1) j)[k]? := by
      intro k hk
      rcases Nat.lt_or_ge k (i + 2) with hk2 | hk2
      · have hkk : k = i + 1 := by omega
        subst hkk
        rw [swapT_getElem?_fst hmi hmj, hlv]
        exact List.getElem?_eq_getElem hvi
      · rw [swapT_getElem?_of_ne l (by omega) (by omega)]
        exact hup k (by omega)
    obtain ⟨t₀, hb0, ht0⟩ := fyAux_surj i (swapT l (i + 1) j) l' hpm him hupm
    refine ⟨Function.update t₀ (i + 1) j, fun m => ?_, ?_⟩
    · by_cases hm : m = i + 1
      · subst hm
        rw [Function.update_same]
        omega
      · rw [Function.update_noteq hm]
        exact hb0 m
    · rw [fyAux, Function.update_same,
        fyAux_congr i _ (fun k _ hki => Function.update_noteq (by omega) _ _)]
      exact ht0

/-- The tape of swap partners consumed by one Fisher-Yates run over `n`
elements: one independent uniform draw from `[0, i]` for each position
`i`; there are `n!` such tapes, all equally likely. -/
abbrev FYTape (n : ℕ) := (i : Fin n) → Fin (i.val + 1)

/-- A tape read as a plain partner function on naturals. -/
def tapeFun {n : ℕ} (t : FYTape n) : ℕ → ℕ := fun i =>
  if h : i < n then (t ⟨i, h⟩).val else 0

lemma tapeFun_le {n : ℕ} (t : FYTape n) : ∀ m, tapeFun t m ≤ m := by
  intro m
  unfold tapeFun
  split
  · next h => exact Nat.lt_succ_iff.mp (t ⟨m, h⟩).isLt
  · exact Nat.zero_le m

/-- The Fisher-Yates permutation of `l` driven by the tape `t`. -/
def fyT {α : Type _} (l : List α) (t : FYTape l.length) : List α :=
  fy l (tapeFun t)

/-- The tape induced by a raw entropy stream `r`: position `i` reduces
`r i` into `[0, i]`, exactly as `generate_index (i + 1)` does. -/
def entropyTape (n : ℕ) (r : ℕ → ℕ) : FYTape n :=
  fun i => ⟨r i.val % (i.val + 1), Nat.mod_lt _ (Nat.succ_pos _)⟩

lemma shuffle_eq_fyT {α : Type _} (l : List α) (r : ℕ → ℕ) :
    shuffle l r = some (fyT l (entropyTape l.length r)) := by
  rw [shuffle_eq_fy]
  congr 1
  apply fyAux_congr
  intro k hk1 hki
  have hk : k < l.length := by omega
  simp [tapeFun, entropyTape, hk]

lemma fyT_inj {α : Type _} {l : List α} (hnd : l.Nodup)
    {t₁ t₂ : FYTape l.length} (h : fyT l t₁ = fyT l t₂) : t₁ = t₂ := by
  funext i
  apply Fin.ext
  rcases Nat.eq_zero_or_pos i.val with h0 | h0
  · have e1 : (t₁ i).val ≤ i.val := Nat.lt_succ_iff.mp (t₁ i).isLt
    have e2 : (t₂ i).val ≤ i.val := Nat.lt_succ_iff.mp (t₂ i).isLt
    omega
  · have hlen : i.val < l.length := i.isLt
    have hres := fyAux_inj (tapeFun_le t₁) (tapeFun_le t₂) (l.length - 1) l hnd
      (by omega) h i.val h0 (by omega)
    simpa [tapeFun, hlen] using hres

lemma fyT_surj {α : Type _} {l l' : List α} (hp : List.Perm l' l) :
    ∃ t : FYTape l.length, fyT l t = l' := by
  rcases Nat.eq_zero_or_pos l.length with h0 | h0
  · have hnil : l = [] := List.length_eq_zero.mp h0
    subst hnil
    have hnil' : l' = [] := hp.eq_nil
    exact ⟨fun i => i.elim0, by simp [fyT, fy, fyAux, hnil']⟩
  · obtain ⟨t₀, hb0, ht0⟩ := fyAux_surj (l.length - 1) l l' hp (by omega)
      (fun k hk => by
        have hll : l'.length = l.length := hp.length_eq
        have h1 : l'.length ≤ k := by omega
        have h2 : l.length ≤ k := by omega
        rw [List.getElem?_eq_none h1, List.getElem?_eq_none h2])
    refine ⟨fun i => ⟨t₀ i.val, Nat.lt_succ_of_le (hb0 i.val)⟩, ?_⟩
    calc fyT l (fun i => ⟨t₀ i.val, Nat.lt_succ_of_le (hb0 i.val)⟩)
        = fyAux t₀ (l.length - 1) l := by
          apply fyAux_congr
          intro k hk1 hki
          have hk : k < l.length := by omega
          simp [tapeFun, hk]
      _ = l' := ht0

lemma card_fytape (n : ℕ) : Fintype.card (FYTape n) = n.factorial := by
  rw [Fintype.card_pi]
  simp only [Fintype.card_fin]
  rw [Fin.prod_univ_eq_prod_range (fun i => i + 1) n]
  exact Finset.prod_range_add_one_eq_factorial n

/-- C9: on a duplicate-free list `l` of length `N`, the Fisher-Yates pass
performed by `shuffle` (each swap at position `i` drawing its partner
uniformly from the still-unswapped prefix `[0, i]`) is a bijection from
the `N!` equally likely partner tapes onto the orderings of `l`: every
ordering `l'` of `l` is produced by exactly one tape, so each occurs with
probability exactly `1 / N!`; every run of `shuffle` is such a tape-driven
pass. -/
theorem shuffle_uniform_permutation {α : Type _} [DecidableEq α]
    (l l' : List α) (hnd : l.Nodup) (hp : List.Perm l' l) :
    (Finset.univ.filter fun t : FYTape l.length => fyT l t = l').card = 1 ∧
      Fintype.card (FYTape l.length) = l.length.factorial ∧
      (∀ r : ℕ → ℕ, shuffle l r = some (fyT l (entropyTape l.length r))) ∧
      ((Finset.univ.filter fun t : FYTape l.length =>
            fyT l t = l').card : ℚ) / (Fintype.card (FYTape l.length) : ℚ) =
        1 / (l.length.factorial : ℚ) := by
  obtain ⟨t₀, ht₀⟩ := fyT_surj hp
  have hcard :
      (Finset.univ.filter fun t : FYTape l.length => fyT l t = l').card = 1 := by
    rw [Finset.card_eq_one]
    refine ⟨t₀, Finset.eq_singleton_iff_unique_mem.mpr ⟨?_, ?_⟩⟩
    · simp [ht₀]
    · intro t ht
      simp only [Finset.mem_filter] at ht
      exact fyT_inj hnd (ht.2.trans ht₀.symm)
  refine ⟨hcard, card_fytape l.length, shuffle_eq_fyT l, ?_⟩
  rw [hcard, card_fytape]
  norm_num

theorem shuffle_uniform_permutation_witness :
    (Finset.univ.filter fun t : FYTape ([1, 2] : List ℕ).length =>
        fyT [1, 2] t = [2, 1]).card = 1 ∧
      Fintype.card (FYTape ([1, 2] : List ℕ).length) =
        ([1, 2] : List ℕ).length.factorial ∧
      (∀ r : ℕ → ℕ, shuffle [1, 2] r =
        some (fyT [1, 2] (entropyTape ([1, 2] : List ℕ).length r))) ∧
      ((Finset.univ.filter fun t : FYTape ([1, 2] : List ℕ).length =>
            fyT [1, 2] t = [2, 1]).card : ℚ) /
          (Fintype.card (FYTape ([1, 2] : List ℕ).length) : ℚ) =
        1 / (([1, 2] : List ℕ).length.factorial : ℚ) :=
  shuffle_uniform_permutation [1, 2] [2, 1] (by decide) (List.Perm.swap 1 2 [])

end RegdTesting
